import Mathlib

/-!
# watcher: a file watcher that reruns commands

A shallow embedding of `main.go` and `serve.go`, followed by theorems about
the embedding.

Modelling conventions.

* `Time` is an instant on one time line (an integer count of clock ticks since
  Go's zero `time.Time{}`); `t.Before(u)` is `t < u`.
* Paths are lists of characters.  The slash and the dot are ASCII, so the
  byte-wise algorithms of package `path` act on characters in the same way.
* The file system, the fsnotify watcher and the regular-expression engine are
  the environment: `os.Stat`, `ioutil.ReadDir`, `Watcher.Add`,
  `regexp.Compile` and `MatchString` are functions handed to the model.
* Blocking calls are modelled by what they return: the serve loop receives the
  clock reading returned by `c.run`, the wait loop receives the sequence of
  `select` cases that fire.
* Recursion that follows the directory structure carries fuel; `none` means
  that the fuel ran out.
-/

namespace Watcher

/-! ## Time -/

/-- An instant; `0` is Go's zero `time.Time{}`. -/
abbrev Time := Int

/-- The zero value `time.Time{}`. -/
def zeroTime : Time := 0

/-- `rebuildDelay = 200 * time.Millisecond`, in nanoseconds. -/
def rebuildDelay : Nat := 200 * 1000000

/-! ## Package `path`: `Clean`, `Split`, `Dir`, `Join` -/

/-- A path, as its sequence of characters. -/
abbrev Path := List Char

/-- The `..` backtracking of `path.Clean` on the output buffer, held reversed
(the head is the last byte written): `out.w--`, then
`for out.w > dotdot && out.index(out.w) != '/' { out.w-- }`. -/
def backtrack (dotdot : Nat) : List Char → List Char
  | [] => []
  | c :: rest =>
    if dotdot < rest.length ∧ c ≠ '/' then backtrack dotdot rest else rest

/-- The separator that `path.Clean` writes before an element:
`if rooted && out.w != 1 || !rooted && out.w != 0 { out.append('/') }`. -/
def addSlash (rooted : Bool) (out : List Char) : List Char :=
  if (rooted = true ∧ out.length ≠ 1) ∨ (rooted = false ∧ out.length ≠ 0) then '/' :: out
  else out

/-- The main loop of `path.Clean`.  `copying` is true inside the inner loop that
copies a real path element; `out` is the output buffer, reversed; the last
argument is the input not yet read (`path[r:]`). -/
def cleanLoop (rooted : Bool) : Bool → List Char → Nat → List Char → List Char
  | _, out, _, [] => out
  | true, out, dotdot, c :: rest =>
    if c = '/' then cleanLoop rooted false out dotdot rest
    else cleanLoop rooted true (c :: out) dotdot rest
  | false, out, dotdot, c :: rest =>
    if c = '/' then cleanLoop rooted false out dotdot rest
    else if c = '.' ∧ (rest = [] ∨ rest.head? = some '/') then
      cleanLoop rooted false out dotdot rest
    else
      match rest with
      | c2 :: rest2 =>
        if c = '.' ∧ c2 = '.' ∧ (rest2 = [] ∨ rest2.head? = some '/') then
          if dotdot < out.length then
            cleanLoop rooted false (backtrack dotdot out) dotdot rest2
          else if rooted = false then
            let out1 := if 0 < out.length then '/' :: out else out
            cleanLoop rooted false ('.' :: '.' :: out1) (out1.length + 2) rest2
          else cleanLoop rooted false out dotdot rest2
        else cleanLoop rooted true (c :: addSlash rooted out) dotdot (c2 :: rest2)
      | [] => cleanLoop rooted true (c :: addSlash rooted out) dotdot []

/-- Go's `path.Clean`. -/
def pathClean (p : Path) : Path :=
  match p with
  | [] => ['.']
  | c :: rest =>
    let out :=
      if c = '/' then cleanLoop true false ['/'] 1 rest
      else cleanLoop false false [] 0 (c :: rest)
    if out.length = 0 then ['.'] else out.reverse

/-- The directory half of Go's `path.Split`: `path[:i+1]` for the last slash
`i` (empty when there is no slash). -/
def splitDir (p : Path) : Path :=
  (p.reverse.dropWhile (fun c => c != '/')).reverse

/-- Go's `path.Dir`: `Clean` of the directory half of `Split`. -/
def pathDir (p : Path) : Path := pathClean (splitDir p)

/-- One iteration of the loop of `path.Join` that appends element `e` to `buf`:
`if len(buf) > 0 || e != "" { if len(buf) > 0 { buf = append(buf, '/') }; buf = append(buf, e...) }`. -/
def joinStep (buf e : List Char) : List Char :=
  if 0 < buf.length ∨ e ≠ [] then (if 0 < buf.length then buf ++ ['/'] else buf) ++ e
  else buf

/-- Go's `path.Join` for two elements. -/
def pathJoin (a b : Path) : Path :=
  if a.length + b.length = 0 then []
  else pathClean (joinStep (joinStep [] a) b)

/-- A rank that `path.Dir` lowers on every path it changes: `"."` has rank zero,
any other path one more than its length. -/
def dirRank (p : Path) : Nat := if p = ['.'] then 0 else p.length + 1

/-! ## The environment: file system, watcher, regular expressions -/

/-- What `os.Stat` reports. -/
inductive StatResult where
  | found (dir : Bool) (mtime : Time)
  | notExist
  | failed (err : String)
  deriving DecidableEq, Repr

/-- What `ioutil.ReadDir` reports (the names of the entries). -/
inductive ReadDirResult where
  | entries (names : List Path)
  | notExist
  | failed (err : String)
  deriving DecidableEq, Repr

/-- What `fsnotify.Watcher.Add` reports. -/
inductive AddResult where
  | ok
  | notExist
  | failed (err : String)
  deriving DecidableEq, Repr

/-- A file-system state together with the watcher's behaviour on it. -/
structure FS where
  stat : Path → StatResult
  readDir : Path → ReadDirResult
  add : Path → AddResult

/-- A compiled regular expression, as its `MatchString`. -/
abbrev Matcher := Path → Bool

/-- The fields of `Client` that `main` fills in, and `excludeRe`. -/
structure Client where
  hasSetPGID : Bool
  path : String
  cmd : String
  exclude : String
  excludeRe : Option Matcher

/-- The test `c.excludeRe != nil && c.excludeRe.MatchString(p)`. -/
def excluded (re : Option Matcher) (p : Path) : Bool :=
  match re with
  | none => false
  | some m => m p

/-! ## `serve.go`: file-system side -/

/-- `isDir`. -/
def isDir (fs : FS) (p : Path) : Except String Bool :=
  match fs.stat p with
  | .notExist => .ok false
  | .failed e => .error e
  | .found d _ => .ok d

/-- `Client.watch`: the paths that end up registered (none when `Add` fails;
both failures are only logged). -/
def watch (fs : FS) (p : Path) : List Path :=
  match fs.add p with
  | .ok => [p]
  | .notExist => []
  | .failed _ => []

/-- The text of the error `modTime` builds when the walk reaches a fixed point
of `path.Dir`. -/
def noDirectoryError (p : Path) : String :=
  "Failed to find directory for " ++ String.mk p

/-- `Client.modTime`, with fuel for the recursion on the parent directory. -/
def modTime (stat : Path → StatResult) : Nat → Path → Option (Except String Time)
  | 0, _ => none
  | fuel + 1, p =>
    match stat p with
    | .notExist =>
      let q := pathDir p
      if q = p then some (.error (noDirectoryError p))
      else modTime stat fuel q
    | .failed e => some (.error e)
    | .found _ t => some (.ok t)

/-- Fuel that always suffices for `modTime` on `p`. -/
def modTimeFuel (p : Path) : Nat := p.length + 2

/-- The entries `watchDir` iterates over: none when `ReadDir` failed (the failure
is logged and the loop runs over the nil slice). -/
def listed : ReadDirResult → List Path
  | .entries names => names
  | .notExist => []
  | .failed _ => []

/-- The loop over the entries in `Client.watchDir`; `visit` is the recursive call.
The result lists the paths registered, in order. -/
def watchEntries (fs : FS) (re : Option Matcher) (visit : Path → Option (List Path))
    (p : Path) : List Path → Option (List Path)
  | [] => some []
  | e :: es =>
    let sub := pathJoin p e
    if excluded re sub then watchEntries fs re visit p es
    else
      match isDir fs sub with
      | .error _ => watchEntries fs re visit p es
      | .ok true =>
        match visit sub with
        | none => none
        | some here => (watchEntries fs re visit p es).map (fun later => here ++ later)
      | .ok false => watchEntries fs re visit p es

/-- `Client.watchDir`, with fuel for the recursion into subdirectories.  The
result lists the paths registered with the watcher, in order. -/
def watchDir (fs : FS) (re : Option Matcher) : Nat → Path → Option (List Path)
  | 0, _ => none
  | fuel + 1, p =>
    match fs.readDir p with
    | .notExist => some []
    | r =>
      (watchEntries fs re (watchDir fs re fuel) p (listed r)).map
        (fun below => below ++ watch fs p)

/-- How `startWatching` ends: `log.Fatalf`, or the paths registered. -/
inductive WatchStart where
  | fatal (msg : String)
  | watching (registered : List Path)

/-- `Client.startWatching` (the registration part; it then starts `sendChanges`). -/
def startWatching (fs : FS) (c : Client) (fuel : Nat) : Option WatchStart :=
  match isDir fs c.path.toList with
  | .error e => some (.fatal ("Failed to watch " ++ c.path ++ ": " ++ e))
  | .ok true => (watchDir fs c.excludeRe fuel c.path.toList).map .watching
  | .ok false => some (.watching (watch fs c.path.toList))

/-- A raw fsnotify event: the path and the operation bit mask. -/
structure FsEvent where
  name : Path
  op : Nat

/-- The bit `fsnotify.Create`. -/
def opCreate : Nat := 1

/-- What the `select` in `sendChanges` receives. -/
inductive WatcherMsg where
  | error (err : String)
  | event (ev : FsEvent)

/-- The effects of one iteration of `sendChanges` on an event: the result of the
`modTime` call (`none` when it is not called), the paths registered with the
watcher, and the timestamp sent on `changes` (`none` when nothing is sent). -/
structure Sent where
  resolved : Option (Except String Time)
  added : List Path
  forwarded : Option Time

/-- How one iteration of `sendChanges` ends. -/
inductive SendOutcome where
  | fatal (msg : String)
  | handled (r : Sent)

/-- One iteration of the loop of `Client.sendChanges`. -/
def sendChanges (fs : FS) (c : Client) (fuel : Nat) : WatcherMsg → Option SendOutcome
  | .error e => some (.fatal ("Watcher error: " ++ e))
  | .event ev =>
    if excluded c.excludeRe ev.name then some (.handled ⟨none, [], none⟩)
    else
      match modTime fs.stat (modTimeFuel ev.name) ev.name with
      | none => none
      | some (.error e) => some (.handled ⟨some (.error e), [], none⟩)
      | some (.ok time) =>
        if ev.op &&& opCreate ≠ 0 then
          match isDir fs ev.name with
          | .error _ => some (.handled ⟨some (.ok time), [], none⟩)
          | .ok true =>
            (watchDir fs c.excludeRe fuel ev.name).map
              (fun reg => .handled ⟨some (.ok time), reg, some time⟩)
          | .ok false => some (.handled ⟨some (.ok time), [], some time⟩)
        else some (.handled ⟨some (.ok time), [], some time⟩)

/-! ## `serve.go`: the wait loop -/

/-- The two signals `wait` sends. -/
inductive Signal where
  | SIGTERM
  | SIGKILL
  deriving DecidableEq, Repr

/-- What `syscall.Wait4(p, &status, WNOHANG, nil)` reports on a ticker tick. -/
inductive Wait4Result where
  | failed (err : String)
  | reaped (status : Int)
  | running
  deriving DecidableEq, Repr

/-- The `select` cases of the loop in `wait`. -/
inductive WaitEvent where
  | kill (t : Time)
  | tick (r : Wait4Result)
  deriving DecidableEq, Repr

/-- The state of one `wait` call: the counter `n` and the signals sent so far,
each with the process id it was sent to. -/
structure WaitState where
  n : Int
  sent : List (Int × Signal)
  deriving DecidableEq, Repr

/-- How a `wait` call stands after a sequence of events. -/
inductive WaitOutcome where
  | exited (status : Int) (st : WaitState)
  | panicked (err : String) (st : WaitState)
  | waiting (st : WaitState)
  deriving DecidableEq, Repr

/-- Two's-complement wrap-around of a Go `int` of `w` bits. -/
def wrapInt (w : Nat) (x : Int) : Int :=
  (x + 2 ^ (w - 1)) % 2 ^ w - 2 ^ (w - 1)

/-- The loop of `Client.wait` on a `w`-bit platform, from state `st`. -/
def waitLoop (w : Nat) (hasSetPGID : Bool) (pid : Int) (start : Time) :
    WaitState → List WaitEvent → WaitOutcome
  | st, [] => .waiting st
  | st, .kill t :: evs =>
    if t < start then waitLoop w hasSetPGID pid start st evs
    else
      let p := if hasSetPGID then -pid else pid
      let sig := if st.n = 0 then Signal.SIGTERM else Signal.SIGKILL
      waitLoop w hasSetPGID pid start ⟨wrapInt w (st.n + 1), st.sent ++ [(p, sig)]⟩ evs
  | st, .tick r :: evs =>
    match r with
    | .failed e => .panicked e st
    | .reaped s => .exited s st
    | .running => waitLoop w hasSetPGID pid start st evs

/-- `Client.wait`: the loop entered with `var n int`. -/
def wait (w : Nat) (hasSetPGID : Bool) (pid : Int) (start : Time)
    (evs : List WaitEvent) : WaitOutcome :=
  waitLoop w hasSetPGID pid start ⟨0, []⟩ evs

/-- Whether a `select` case of `wait` is a kill request that the loop accepts:
one whose timestamp is not before the start of the run. -/
def accepted (start : Time) : WaitEvent → Bool
  | .kill t => decide (start ≤ t)
  | .tick _ => false

/-- Whether a `select` case of `wait` leaves the process unreaped: a kill request,
or a tick on which `Wait4` finds the process still running. -/
def unreaped : WaitEvent → Bool
  | .kill _ => true
  | .tick .running => true
  | .tick _ => false

/-- The escalation the spec describes for `k` accepted requests sent to `target`:
the cooperative signal first, the forceful signal for every later one. -/
def escalation (target : Int) (k : Nat) : List (Int × Signal) :=
  (List.range k).map (fun i => (target, if i = 0 then Signal.SIGTERM else Signal.SIGKILL))

/-! ## `serve.go`: the serve loop -/

/-- The local variables of `serve`: `lastRun`, `lastChange`, the delay the timer
is armed with (`none` once it has fired), and the number of calls of `c.run`. -/
structure ServeState where
  lastRun : Time
  lastChange : Time
  timer : Option Nat
  runs : Nat
  deriving DecidableEq, Repr

/-- The `select` cases of the loop in `serve`.  `rerun` and `timer` carry the
value `c.run` returns if it is called: the clock reading taken when the
command has finished. -/
inductive ServeEvent where
  | change (t : Time)
  | rerun (done : Time)
  | timer (done : Time)
  deriving DecidableEq, Repr

/-- The case `lastChange = <-changes`. -/
def onChange (s : ServeState) (t : Time) : ServeState :=
  { s with lastChange := t, timer := some rebuildDelay }

/-- The case `<-ui.rerun()`. -/
def onRerun (s : ServeState) (done : Time) : ServeState :=
  { s with lastRun := done, runs := s.runs + 1 }

/-- The case `<-timer.C`. -/
def onTimer (s : ServeState) (done : Time) : ServeState :=
  if s.lastRun < s.lastChange then { s with lastRun := done, runs := s.runs + 1, timer := none }
  else { s with timer := none }

/-- One iteration of the loop in `serve`. -/
def serveStep (s : ServeState) : ServeEvent → ServeState
  | .change t => onChange s t
  | .rerun done => onRerun s done
  | .timer done => onTimer s done

/-- The loop in `serve` over a sequence of `select` cases. -/
def serveLoop (s : ServeState) (evs : List ServeEvent) : ServeState :=
  evs.foldl serveStep s

/-- The timestamps that a sequence of `select` cases delivers on `changes`. -/
def changesOf : List ServeEvent → List Time
  | [] => []
  | .change t :: evs => t :: changesOf evs
  | .rerun _ :: evs => changesOf evs
  | .timer _ :: evs => changesOf evs

/-- The variables as `serve` sets them up before the loop: `timer := time.NewTimer(0)`,
`lastRun := time.Time{}`, `lastChange := time.Now()`. -/
def initialState (now : Time) : ServeState := ⟨zeroTime, now, some 0, 0⟩

/-- How the part of `serve` before the loop ends. -/
inductive Setup where
  | fatal (msg : String)
  | ready (c : Client) (registered : List Path) (s : ServeState)

/-- The part of `Client.serve` before the loop, in source order: the timer, then
`startWatching`, then `lastRun` and `lastChange`, then the compilation of the
exclude pattern.  `now` is the reading of `time.Now()`. -/
def serve (compile : String → Option Matcher) (fs : FS) (fuel : Nat) (c : Client)
    (now : Time) : Option Setup :=
  match startWatching fs c fuel with
  | none => none
  | some (.fatal msg) => some (.fatal msg)
  | some (.watching reg) =>
    let s : ServeState := initialState now
    if c.exclude ≠ "" then
      match compile c.exclude with
      | none => some (.fatal ("Bad regexp:  " ++ c.exclude))
      | some re => some (.ready { c with excludeRe := some re } reg s)
    else some (.ready c reg s)

/-! ## `main.go` -/

/-- How `main` ends before it blocks in `wg.Wait()`. -/
inductive MainOutcome where
  | usage (status : Nat)
  | fatal (msg : String) (status : Nat)
  | watcherPanic (started : List Client)
  | indexPanic (started : List Client)
  | serving (workers : List Client)

/-- The loop `for i, path := range watchPath` of `main`, from index `i`;
`newWatcher j` tells whether `fsnotify.NewWatcher()` succeeds in iteration `j`. -/
def startWorkers (newWatcher : Nat → Bool) (hasSetPGID : Bool) (exclude cmd : List String) :
    Nat → List String → List Client → MainOutcome
  | _, [], started => .serving started
  | i, path :: rest, started =>
    let exc : Option String := if exclude.length > i then exclude[i]? else some ""
    match exc with
    | none => .indexPanic started
    | some exc =>
      if newWatcher i then
        match cmd[i]? with
        | none => .indexPanic started
        | some command =>
          startWorkers newWatcher hasSetPGID exclude cmd (i + 1) rest
            (started ++ [⟨hasSetPGID, path, command, exc, none⟩])
      else .watcherPanic started

/-- `main`, after flag parsing. -/
def main (newWatcher : Nat → Bool) (hasSetPGID : Bool) (exclude watchPath cmd : List String) :
    MainOutcome :=
  if cmd.length = 0 then .usage 1
  else if cmd.length ≠ watchPath.length then
    .fatal "The number of cmd not equal to watchPath" 1
  else startWorkers newWatcher hasSetPGID exclude cmd 0 watchPath []

/-! ## What the recursive walk reaches -/

/-- The directories that the walk of `watchDir` from `p` enters: `p` itself, and
below a directory that can be listed every entry that is not excluded and is
a directory. -/
inductive Walks (fs : FS) (re : Option Matcher) : Path → Path → Prop where
  | here (p : Path) : Walks fs re p p
  | down {p d : Path} (names : List Path) (e : Path) :
      fs.readDir p = .entries names → e ∈ names →
      excluded re (pathJoin p e) = false → isDir fs (pathJoin p e) = .ok true →
      Walks fs re (pathJoin p e) d → Walks fs re p d

/-- The paths registered by the part of `serve` before the loop. -/
def Setup.registered : Setup → List Path
  | .fatal _ => []
  | .ready _ reg _ => reg

/-- The compiled exclude pattern in force when the loop of `serve` starts. -/
def Setup.matcher : Setup → Option Matcher
  | .fatal _ => none
  | .ready c _ _ => c.excludeRe

/-! ## Sample environments -/

/-- A file system in which only the directory `/a` exists, modified at time 5. -/
def onlyA : Path → StatResult :=
  fun q => if q = "/a".toList then .found true 5 else .notExist

/-- A file system with the directories `/r`, `/r/vendor`, `/r/vendor/lib` and
`/r/src`, all modified at time 7, on which every `Add` succeeds. -/
def sampleFS : FS where
  stat := fun q =>
    if q = "/r".toList ∨ q = "/r/vendor".toList ∨ q = "/r/vendor/lib".toList ∨
        q = "/r/src".toList then .found true 7
    else .notExist
  readDir := fun q =>
    if q = "/r".toList then .entries ["vendor".toList, "src".toList]
    else if q = "/r/vendor".toList then .entries ["lib".toList]
    else if q = "/r/vendor/lib".toList ∨ q = "/r/src".toList then .entries []
    else .notExist
  add := fun _ => .ok

/-- The depth left below a path of `sampleFS`. -/
def sampleRank (q : Path) : Nat :=
  if q = "/r".toList then 2 else if q = "/r/vendor".toList then 1 else 0

/-- The matcher of a regular expression made of plain letters: it matches the
paths that contain the letters as a substring. -/
def literalMatcher (pat : List Char) : Matcher :=
  fun p => p.tails.any (fun s => pat.isPrefixOf s)

/-- A regular-expression engine for patterns made of plain letters. -/
def compileLiteral : String → Option Matcher :=
  fun pat => some (literalMatcher pat.toList)

/-! ## Package `path`: the length of `Clean` and the descent of `Dir` -/

theorem backtrack_length_le (dd : Nat) (out : List Char) :
    (backtrack dd out).length ≤ out.length - 1 := by
  induction out with
  | nil => simp [backtrack]
  | cons c rest ih =>
    simp only [backtrack]
    split_ifs
    · simp only [List.length_cons, Nat.add_sub_cancel]; omega
    · simp

theorem addSlash_length (rooted : Bool) (out : List Char) :
    (addSlash rooted out).length =
      if out.length = (if rooted = true then 1 else 0) then out.length else out.length + 1 := by
  cases rooted <;> simp only [addSlash] <;> split_ifs <;> simp_all

theorem getLast?_of_cons {x c : Char} {rest : List Char}
    (h : (c :: rest).getLast? = some x) : (rest = [] ∧ c = x) ∨ (rest ≠ [] ∧ rest.getLast? = some x) := by
  cases rest with
  | nil => left; simpa using h
  | cons d rest => right; exact ⟨by simp, by simpa [List.getLast?_cons_cons] using h⟩

theorem cleanLoop_length (rooted : Bool) (n : Nat) :
    ∀ (rest : List Char) (copying : Bool) (out : List Char) (dd slack : Nat),
      rest.length ≤ n →
      (copying = false → slack = 0 →
        out.length = (if rooted = true then 1 else 0) ∨ rest = [] ∨ rest.head? = some '/') →
      (cleanLoop rooted copying out dd rest).length ≤ out.length + slack + rest.length ∧
      (rest.getLast? = some '/' →
        (cleanLoop rooted copying out dd rest).length < out.length + slack + rest.length) := by
  induction n using Nat.strong_induction_on with
  | _ n ih =>
    intro rest copying out dd slack hn hinv
    cases rest with
    | nil => cases copying <;> simp [cleanLoop]
    | cons c rest =>
      have hlt : rest.length < n := by simpa using hn
      -- a recursive call on a shorter input that keeps the total
      have key : ∀ (rest1 : List Char) (copying1 : Bool) (out1 : List Char) (dd1 slack1 : Nat),
          rest1.length < n →
          (copying1 = false → slack1 = 0 →
            out1.length = (if rooted = true then 1 else 0) ∨ rest1 = [] ∨ rest1.head? = some '/') →
          out1.length + slack1 + rest1.length ≤ out.length + slack + (c :: rest).length →
          (rest1 = [] → (c :: rest).getLast? = some '/' →
            out1.length < out.length + slack + (c :: rest).length) →
          (rest1 ≠ [] → (c :: rest).getLast? = some '/' → rest1.getLast? = some '/') →
          (cleanLoop rooted copying1 out1 dd1 rest1).length ≤
              out.length + slack + (c :: rest).length ∧
            ((c :: rest).getLast? = some '/' →
              (cleanLoop rooted copying1 out1 dd1 rest1).length <
                out.length + slack + (c :: rest).length) := by
        intro rest1 copying1 out1 dd1 slack1 h1 h2 h3 h4 h5
        obtain ⟨a, b⟩ := ih rest1.length h1 rest1 copying1 out1 dd1 slack1 le_rfl h2
        refine ⟨le_trans a h3, fun hl => ?_⟩
        by_cases hr : rest1 = []
        · subst hr
          have := h4 rfl hl
          cases copying1 <;> simpa [cleanLoop] using this
        · exact lt_of_lt_of_le (b (h5 hr hl)) h3
      have tl : ∀ {rest1 : List Char}, rest1 ≠ [] → (c :: rest).getLast? = some '/' →
          rest1 = rest → rest1.getLast? = some '/' := fun hr hl he =>
        ((getLast?_of_cons hl).resolve_left (fun h => hr (he ▸ h.1))).2 ▸ he ▸ rfl
      cases copying with
      | true =>
        simp only [cleanLoop]
        split_ifs with hc
        · exact key rest false out dd (slack + 1) hlt (by intro _ h; omega)
            (by simp only [List.length_cons]; omega)
            (fun _ _ => by simp only [List.length_cons]; omega) (fun hr hl => tl hr hl rfl)
        · refine key rest true (c :: out) dd slack hlt (by intro h; cases h)
            (by simp only [List.length_cons]; omega) (fun hr hl => ?_) (fun hr hl => tl hr hl rfl)
          subst hr
          exact absurd (by simpa using hl) hc
      | false =>
        have hslack : c ≠ '/' → out.length ≠ (if rooted = true then 1 else 0) → 0 < slack := by
          intro hc ho
          rcases Nat.eq_zero_or_pos slack with h0 | h0
          · rcases hinv rfl h0 with h | h | h
            · exact absurd h ho
            · cases h
            · simp at h; exact absurd h hc
          · exact h0
        have hadd : c ≠ '/' → (addSlash rooted out).length ≤ out.length + slack := by
          intro hc
          rw [addSlash_length]
          by_cases ho : out.length = (if rooted = true then 1 else 0)
          · rw [if_pos ho]; omega
          · rw [if_neg ho]; have h0 : 0 < slack := hslack hc ho; omega
        cases rest with
        | nil =>
          rw [cleanLoop.eq_4]
          by_cases hc : c = '/'
          · rw [if_pos hc, cleanLoop.eq_1]
            exact ⟨by simp only [List.length_cons]; omega, fun _ => by simp only [List.length_cons]; omega⟩
          · rw [if_neg hc]
            by_cases hdot : c = '.' ∧ (([] : List Char) = [] ∨ ([] : List Char).head? = some '/')
            · rw [if_pos hdot, cleanLoop.eq_1]
              exact ⟨by simp only [List.length_cons]; omega, fun _ => by simp only [List.length_cons]; omega⟩
            · rw [if_neg hdot, cleanLoop.eq_1]
              refine ⟨?_, fun hl => absurd (by simpa using hl) hc⟩
              have := hadd hc
              simp only [List.length_cons, List.length_nil]; omega
        | cons c2 rest2 =>
          have hlt2 : rest2.length < n := by simp only [List.length_cons] at hlt; omega
          rw [cleanLoop.eq_3]
          by_cases hc : c = '/'
          · rw [if_pos hc]
            exact key (c2 :: rest2) false out dd (slack + 1) hlt (by intro _ h; omega)
              (by simp only [List.length_cons]; omega)
              (fun h _ => by cases h) (fun hr hl => tl hr hl rfl)
          · rw [if_neg hc]
            by_cases hdot : c = '.' ∧ (c2 :: rest2 = [] ∨ (c2 :: rest2).head? = some '/')
            · rw [if_pos hdot]
              exact key (c2 :: rest2) false out dd (slack + 1) hlt (by intro _ h; omega)
                (by simp only [List.length_cons]; omega)
                (fun h _ => by cases h) (fun hr hl => tl hr hl rfl)
            · rw [if_neg hdot]
              have tl2 : rest2 ≠ [] → (c :: c2 :: rest2).getLast? = some '/' →
                  rest2.getLast? = some '/' := by
                intro hr2 hl
                cases rest2 with
                | nil => exact absurd rfl hr2
                | cons d rest3 => simpa [List.getLast?_cons_cons] using hl
              by_cases hdd : c = '.' ∧ c2 = '.' ∧ (rest2 = [] ∨ rest2.head? = some '/')
              · rw [if_pos hdd]
                have hend : rest2 = [] → (c :: c2 :: rest2).getLast? = some '/' → False := by
                  intro hr2 hl
                  subst hr2
                  have h2 : c2 = '/' := by simpa [List.getLast?_cons_cons] using hl
                  rw [hdd.2.1] at h2
                  exact absurd h2 (by decide)
                by_cases hb : dd < out.length
                · rw [if_pos hb]
                  have := backtrack_length_le dd out
                  exact key rest2 false (backtrack dd out) dd (slack + 2) hlt2
                    (by intro _ h; omega) (by simp only [List.length_cons]; omega)
                    (fun h hl => (hend h hl).elim) tl2
                · rw [if_neg hb]
                  by_cases hr : rooted = false
                  · rw [if_pos hr]
                    dsimp only
                    by_cases ho : 0 < out.length
                    · rw [if_pos ho]
                      have h0 : 0 < slack := hslack hc (by rw [hr]; simp only [Bool.false_eq_true, if_false]; omega)
                      exact key rest2 false ('.' :: '.' :: '/' :: out) _ (slack - 1) hlt2
                        (fun _ _ => Or.inr hdd.2.2) (by simp only [List.length_cons]; omega)
                        (fun h hl => (hend h hl).elim) tl2
                    · rw [if_neg ho]
                      exact key rest2 false ('.' :: '.' :: out) _ slack hlt2
                        (fun _ _ => Or.inr hdd.2.2) (by simp only [List.length_cons]; omega)
                        (fun h hl => (hend h hl).elim) tl2
                  · rw [if_neg hr]
                    exact key rest2 false out dd (slack + 2) hlt2
                      (by intro _ h; omega) (by simp only [List.length_cons]; omega)
                      (fun h hl => (hend h hl).elim) tl2
              · rw [if_neg hdd]
                have := hadd hc
                exact key (c2 :: rest2) true (c :: addSlash rooted out) dd
                  (out.length + slack - (addSlash rooted out).length) hlt
                  (by intro h; cases h) (by simp only [List.length_cons]; omega)
                  (fun h _ => by cases h) (fun hr hl => tl hr hl rfl)

theorem pathClean_length_le (p : Path) (hp : p ≠ []) : (pathClean p).length ≤ p.length := by
  cases p with
  | nil => exact absurd rfl hp
  | cons c rest =>
    simp only [pathClean]
    by_cases hc : c = '/'
    · rw [if_pos hc]
      have := (cleanLoop_length true rest.length rest false ['/'] 1 0 le_rfl
        (fun _ _ => Or.inl (by simp))).1
      split_ifs
      · simp
      · simp only [List.length_reverse, List.length_cons, List.length_nil] at *; omega
    · rw [if_neg hc]
      have := (cleanLoop_length false (c :: rest).length (c :: rest) false [] 0 0 le_rfl
        (fun _ _ => Or.inl (by simp))).1
      split_ifs
      · simp
      · simp only [List.length_reverse, List.length_cons, List.length_nil] at *; omega

theorem pathClean_length_lt (p : Path) (hl : p.getLast? = some '/') (h2 : 2 ≤ p.length) :
    (pathClean p).length < p.length := by
  cases p with
  | nil => simp at h2
  | cons c rest =>
    simp only [pathClean]
    by_cases hc : c = '/'
    · rw [if_pos hc]
      have hr : rest ≠ [] := by
        intro h; subst h; simp at h2
      have := (cleanLoop_length true rest.length rest false ['/'] 1 0 le_rfl
        (fun _ _ => Or.inl (by simp))).2
        (((getLast?_of_cons hl).resolve_left (fun h => hr h.1)).2)
      split_ifs
      · simpa using h2
      · simp only [List.length_reverse, List.length_cons, List.length_nil] at *; omega
    · rw [if_neg hc]
      have := (cleanLoop_length false (c :: rest).length (c :: rest) false [] 0 0 le_rfl
        (fun _ _ => Or.inl (by simp))).2 hl
      split_ifs
      · simpa using h2
      · simp only [List.length_reverse, List.length_cons, List.length_nil] at *; omega

theorem splitDir_eq_rdropWhile (p : Path) :
    splitDir p = p.rdropWhile (fun c => c != '/') := rfl

theorem splitDir_length_le (p : Path) : (splitDir p).length ≤ p.length := by
  rw [splitDir_eq_rdropWhile]
  exact (List.rdropWhile_prefix _ _).length_le

theorem splitDir_eq_self (p : Path) (h : p.length ≤ (splitDir p).length) : splitDir p = p := by
  rw [splitDir_eq_rdropWhile] at *
  exact (List.rdropWhile_prefix _ _).eq_of_length_le h

theorem splitDir_getLast? (p : Path) (h : splitDir p ≠ []) :
    (splitDir p).getLast? = some '/' := by
  rw [splitDir_eq_rdropWhile] at *
  have := List.rdropWhile_last_not (fun c => c != '/') p h
  rw [List.getLast?_eq_getLast _ h]
  simpa using this

/-- `path.Dir` lowers the rank of every path that is not a fixed point. -/
theorem pathDir_descends (p : Path) (h : pathDir p ≠ p) : dirRank (pathDir p) < dirRank p := by
  have hp : p ≠ ['.'] := by
    intro hp; subst hp; exact h (by decide)
  by_cases hq : pathDir p = ['.']
  · simp [dirRank, hq, hp]
  · have hlt : (pathDir p).length < p.length := by
      by_cases hd : splitDir p = []
      · exact absurd (by simp [pathDir, hd, pathClean]) hq
      · have h1 := pathClean_length_le (splitDir p) hd
        have h2 := splitDir_length_le p
        by_cases hlen : p.length ≤ (splitDir p).length
        · have he := splitDir_eq_self p hlen
          have hl : p.getLast? = some '/' := by
            have := splitDir_getLast? p hd
            rwa [he] at this
          have h3 : 2 ≤ p.length := by
            match p, hl, h with
            | [c], hl, h =>
              have : c = '/' := by simpa using hl
              subst this
              exact absurd (by decide) h
            | _ :: _ :: _, _, _ => simp
          have := pathClean_length_lt p hl h3
          simpa [pathDir, he] using this
        · simp only [pathDir]; omega
    simp only [dirRank, if_neg hq, if_neg hp]
    omega

/-! ## `modTime` -/

theorem modTime_mono (stat : Path → StatResult) (fuel : Nat) :
    ∀ (p : Path) (r : Except String Time), modTime stat fuel p = some r →
      ∀ fuel1, fuel ≤ fuel1 → modTime stat fuel1 p = some r := by
  induction fuel with
  | zero => intro p r h; simp [modTime] at h
  | succ fuel ih =>
    intro p r h fuel1 hle
    obtain ⟨m, rfl⟩ : ∃ m, fuel1 = m + 1 := ⟨fuel1 - 1, by omega⟩
    rw [modTime] at h ⊢
    cases hs : stat p with
    | found d t => rw [hs] at h; simpa using h
    | failed e => rw [hs] at h; simpa using h
    | notExist =>
      rw [hs] at h
      simp only at h ⊢
      by_cases hq : pathDir p = p
      · rw [if_pos hq] at h ⊢; exact h
      · rw [if_neg hq] at h ⊢; exact ih _ _ h m (by omega)

/-- The walk `p, Dir p, Dir (Dir p), ...` stops at the first path that exists
(case `ok`) or at the first fixed point of `Dir` (case `error`), whichever
comes first, when `stat` never fails for another reason. -/
theorem modTime_walk (stat : Path → StatResult) (hstat : ∀ q e, stat q ≠ .failed e)
    (fuel : Nat) : ∀ p : Path, dirRank p < fuel →
      (∃ k d t, (∀ j < k, stat (pathDir^[j] p) = .notExist) ∧
          stat (pathDir^[k] p) = .found d t ∧ modTime stat fuel p = some (.ok t)) ∨
      (∃ k, (∀ j ≤ k, stat (pathDir^[j] p) = .notExist) ∧
          pathDir^[k + 1] p = pathDir^[k] p ∧
          modTime stat fuel p = some (.error (noDirectoryError (pathDir^[k] p)))) := by
  induction fuel with
  | zero => intro p h; omega
  | succ fuel ih =>
    intro p hr
    rw [modTime]
    cases hs : stat p with
    | found d t =>
      exact Or.inl ⟨0, d, t, fun j hj => by omega, by simpa using hs, rfl⟩
    | failed e => exact absurd hs (hstat p e)
    | notExist =>
      simp only
      by_cases hq : pathDir p = p
      · rw [if_pos hq]
        refine Or.inr ⟨0, fun j hj => ?_, by simpa using hq, rfl⟩
        obtain rfl : j = 0 := by omega
        simpa using hs
      · rw [if_neg hq]
        have hd := pathDir_descends p hq
        rcases ih (pathDir p) (by omega) with ⟨k, d, t, h1, h2, h3⟩ | ⟨k, h1, h2, h3⟩
        · refine Or.inl ⟨k + 1, d, t, fun j hj => ?_, ?_, h3⟩
          · cases j with
            | zero => simpa using hs
            | succ j => rw [Function.iterate_succ_apply]; exact h1 j (by omega)
          · rw [Function.iterate_succ_apply]; exact h2
        · refine Or.inr ⟨k + 1, fun j hj => ?_, ?_, ?_⟩
          · cases j with
            | zero => simpa using hs
            | succ j => rw [Function.iterate_succ_apply]; exact h1 j (by omega)
          · rw [Function.iterate_succ_apply, Function.iterate_succ_apply (n := k)]; exact h2
          · rw [Function.iterate_succ_apply]; exact h3

theorem dirRank_lt_modTimeFuel (p : Path) : dirRank p < modTimeFuel p := by
  simp only [dirRank, modTimeFuel]
  split_ifs <;> omega

theorem iterate_of_fixed {α : Type} (f : α → α) (x : α) (k : Nat)
    (h : f^[k + 1] x = f^[k] x) : ∀ j, k ≤ j → f^[j] x = f^[k] x := by
  intro j hj
  induction j with
  | zero =>
    obtain rfl : k = 0 := by omega
    rfl
  | succ j ih =>
    by_cases hk : k = j + 1
    · rw [hk]
    · rw [Function.iterate_succ_apply', ih (by omega)]
      rw [Function.iterate_succ_apply'] at h
      exact h

/-- C6. When `stat` either succeeds or reports not-exist, `modTime p` returns (the
same result for every fuel from `modTimeFuel p` on) and yields the modification
time of the first existing path in the chain `p, Dir p, Dir (Dir p), ...`, or
the error built at the first fixed point of `Dir` when no path up to it exists.
In particular a missing `p` with an existing parent yields the parent's
modification time, and the result is an error exactly when the chain reaches
a fixed point of `Dir` without any path in it existing. -/
theorem modTime_first_existing (stat : Path → StatResult)
    (hstat : ∀ q, stat q = .notExist ∨ ∃ d t, stat q = .found d t) (p : Path) :
    ∃ r : Except String Time,
      (∀ fuel, modTimeFuel p ≤ fuel → modTime stat fuel p = some r) ∧
      ((∃ k d t, (∀ j < k, stat (pathDir^[j] p) = .notExist) ∧
          stat (pathDir^[k] p) = .found d t ∧ r = .ok t) ∨
       (∃ k, (∀ j ≤ k, stat (pathDir^[j] p) = .notExist) ∧
          pathDir^[k + 1] p = pathDir^[k] p ∧
          r = .error (noDirectoryError (pathDir^[k] p)))) ∧
      (∀ d t, stat p = .notExist → stat (pathDir p) = .found d t → r = .ok t) ∧
      ((∃ e, r = .error e) ↔
        ∃ k, pathDir^[k + 1] p = pathDir^[k] p ∧
          ∀ j ≤ k, stat (pathDir^[j] p) = .notExist) := by
  have hnf : ∀ q e, stat q ≠ .failed e := by
    intro q e h
    rcases hstat q with h1 | ⟨d, t, h1⟩ <;> rw [h1] at h <;> cases h
  have hwalk := modTime_walk stat hnf (modTimeFuel p) p (dirRank_lt_modTimeFuel p)
  have hres : ∃ r, modTime stat (modTimeFuel p) p = some r := by
    rcases hwalk with ⟨_, _, _, _, _, h⟩ | ⟨_, _, _, h⟩ <;> exact ⟨_, h⟩
  obtain ⟨r, hr⟩ := hres
  rw [hr] at hwalk
  have hcases : (∃ k d t, (∀ j < k, stat (pathDir^[j] p) = .notExist) ∧
          stat (pathDir^[k] p) = .found d t ∧ r = .ok t) ∨
       (∃ k, (∀ j ≤ k, stat (pathDir^[j] p) = .notExist) ∧
          pathDir^[k + 1] p = pathDir^[k] p ∧
          r = .error (noDirectoryError (pathDir^[k] p))) := by
    rcases hwalk with ⟨k, d, t, h1, h2, h3⟩ | ⟨k, h1, h2, h3⟩
    · exact Or.inl ⟨k, d, t, h1, h2, by simpa using h3⟩
    · exact Or.inr ⟨k, h1, h2, by simpa using h3⟩
  refine ⟨r, fun fuel hf => modTime_mono stat _ p r hr fuel hf, hcases, ?_, ?_, ?_⟩
  · intro d t hp hd
    have hne : pathDir p ≠ p := by
      intro he; rw [he, hp] at hd; cases hd
    have h2 : modTime stat (p.length + 1 + 1) p = some r := hr
    rw [modTime, hp] at h2
    simp only [if_neg hne] at h2
    rw [modTime, hd] at h2
    simpa using h2.symm
  · rintro ⟨e, he⟩
    rcases hcases with ⟨k, d, t, h1, h2, h3⟩ | ⟨k, h1, h2, h3⟩
    · rw [he] at h3; cases h3
    · exact ⟨k, h2, h1⟩
  · rintro ⟨k, hfix, hall⟩
    rcases hcases with ⟨k1, d, t, h1, h2, h3⟩ | ⟨k1, h1, h2, h3⟩
    · exfalso
      by_cases hk : k1 ≤ k
      · rw [hall k1 hk] at h2; cases h2
      · rw [iterate_of_fixed pathDir p k hfix k1 (by omega), hall k le_rfl] at h2; cases h2
    · exact ⟨_, h3⟩

theorem modTime_first_existing_witness :
    (∀ q, onlyA q = .notExist ∨ ∃ d t, onlyA q = .found d t) ∧
      modTime onlyA (modTimeFuel "/a/b".toList) "/a/b".toList = some (.ok 5) := by
  have hyp : ∀ q, onlyA q = .notExist ∨ ∃ d t, onlyA q = .found d t := by
    intro q
    by_cases h : q = "/a".toList
    · exact Or.inr ⟨true, 5, by simp [onlyA, h]⟩
    · exact Or.inl (by simp only [onlyA, if_neg h])
  refine ⟨hyp, ?_⟩
  obtain ⟨r, h1, _, h3, _⟩ := modTime_first_existing onlyA hyp "/a/b".toList
  rw [h1 _ le_rfl, h3 true 5 (by decide) (by decide)]

/-! ## The serve loop -/

theorem serveLoop_append (s : ServeState) (evs : List ServeEvent) (e : ServeEvent) :
    serveLoop s (evs ++ [e]) = serveStep (serveLoop s evs) e := by
  simp [serveLoop, List.foldl_append]

theorem serveLoop_cons (s : ServeState) (e : ServeEvent) (evs : List ServeEvent) :
    serveLoop s (e :: evs) = serveLoop (serveStep s e) evs := rfl

theorem serveLoop_lastChange (evs : List ServeEvent) :
    ∀ s : ServeState,
      (serveLoop s evs).lastChange = (changesOf evs).getLast?.getD s.lastChange := by
  induction evs with
  | nil => intro s; rfl
  | cons e evs ih =>
    intro s
    rw [serveLoop_cons, ih]
    cases e with
    | change t => simp [changesOf, serveStep, onChange, List.getLast?_cons]
    | rerun d => simp [changesOf, serveStep, onRerun]
    | timer d =>
      simp only [changesOf, serveStep, onTimer]
      split_ifs <;> rfl

theorem serveLoop_changes_runs (ts : List Time) :
    ∀ s : ServeState, (serveLoop s (ts.map .change)).runs = s.runs ∧
      (serveLoop s (ts.map .change)).lastRun = s.lastRun := by
  induction ts with
  | nil => intro s; exact ⟨rfl, rfl⟩
  | cons t ts ih =>
    intro s
    rw [List.map_cons, serveLoop_cons]
    exact ih _

theorem changesOf_map_change (ts : List Time) : changesOf (ts.map .change) = ts := by
  induction ts with
  | nil => rfl
  | cons t ts ih => simp [changesOf, ih]

theorem le_getLast_of_pairwise (l : List Time) (h : l ≠ [])
    (hp : l.Pairwise (fun a b => a ≤ b)) : ∀ t ∈ l, t ≤ l.getLast h := by
  induction l with
  | nil => exact absurd rfl h
  | cons a l ih =>
    intro t ht
    cases l with
    | nil =>
      simp only [List.mem_singleton] at ht
      simp [ht]
    | cons b l =>
      rw [List.getLast_cons (by simp)]
      rcases List.mem_cons.1 ht with rfl | ht1
      · exact (List.pairwise_cons.1 hp).1 _ (List.getLast_mem _)
      · exact ih (by simp) (List.pairwise_cons.1 hp).2 t ht1

theorem serveStep_timer_runs (s : ServeState) (done : Time) :
    (serveStep s (.timer done)).runs = s.runs + (if s.lastRun < s.lastChange then 1 else 0) := by
  simp only [serveStep, onTimer]
  split_ifs <;> rfl

/-- C1. Handling a firing of the timer calls `c.run` exactly when `lastRun` is
strictly before `lastChange`; then `lastRun` becomes the time the run returns
and `lastChange` stays; otherwise `lastRun`, `lastChange` and the number of
runs all stay. -/
theorem timer_runs_iff_stale (s : ServeState) (done : Time) :
    ((serveStep s (.timer done)).runs = s.runs + 1 ↔ s.lastRun < s.lastChange) ∧
    (serveStep s (.timer done)).runs = s.runs + (if s.lastRun < s.lastChange then 1 else 0) ∧
    (serveStep s (.timer done)).lastRun = (if s.lastRun < s.lastChange then done else s.lastRun) ∧
    (serveStep s (.timer done)).lastChange = s.lastChange := by
  simp only [serveStep, onTimer]
  split_ifs with h <;> simp [h]

/-- C2, as the code has it. After any burst of changes with no timer firing in
between, the timer firing that follows calls `c.run` at most once, however
many changes the burst held: once when the last timestamp delivered is
strictly after `lastRun`, not at all otherwise. -/
theorem burst_then_timer (s : ServeState) (ts : List Time) (done : Time) (h : ts ≠ []) :
    (serveLoop s (ts.map .change ++ [.timer done])).runs =
      s.runs + (if s.lastRun < ts.getLast h then 1 else 0) := by
  rw [serveLoop_append]
  have h1 := serveStep_timer_runs (serveLoop s (ts.map .change)) done
  have h2 := serveLoop_changes_runs ts s
  have h3 := serveLoop_lastChange (ts.map .change) s
  rw [changesOf_map_change, List.getLast?_eq_getLast _ h] at h3
  rw [h1, h2.1, h2.2, h3]
  rfl

theorem burst_then_timer_witness :
    (serveLoop (serveLoop (initialState 100) [.timer 500])
        ([450, 700, 800].map .change ++ [.timer 900])).runs =
      (serveLoop (initialState 100) [.timer 500]).runs +
        (if (serveLoop (initialState 100) [.timer 500]).lastRun <
            [450, 700, 800].getLast (by decide) then 1 else 0) :=
  burst_then_timer (serveLoop (initialState 100) [.timer 500]) [450, 700, 800] 900 (by decide)

/-- C2 fails as stated: after the run that completes at time 500, a burst whose
timestamps are not after 500 (changes made while the command was running) is
followed by a timer firing that calls `c.run` zero times. -/
theorem burst_without_run :
    (serveLoop (initialState 100) [.timer 500]).runs = 1 ∧
      (serveLoop (initialState 100) [.timer 500]).lastRun = 500 ∧
      (serveLoop (serveLoop (initialState 100) [.timer 500])
          ([420, 450].map .change ++ [.timer 900])).runs =
        (serveLoop (initialState 100) [.timer 500]).runs := by
  decide

/-- C7, as the code has it. `serve` starts the loop in `initialState now`, with the
timer armed with delay zero; when the clock is past Go's zero time, the first
firing of that timer calls `c.run` although no change and no rerun signal has
been delivered. -/
theorem startup_runs_once (now done : Time) (h : zeroTime < now) :
    (∀ compile fs fuel c c1 reg s,
        serve compile fs fuel c now = some (.ready c1 reg s) → s = initialState now) ∧
      (initialState now).timer = some 0 ∧
      (serveStep (initialState now) (.timer done)).runs = 1 ∧
      (serveStep (initialState now) (.timer done)).lastRun = done := by
  refine ⟨?_, rfl, ?_, ?_⟩
  · intro compile fs fuel c c1 reg s hs
    simp only [serve] at hs
    split at hs
    · cases hs
    · cases hs
    · split_ifs at hs
      · split at hs
        · cases hs
        · simp only [Option.some.injEq, Setup.ready.injEq] at hs
          exact hs.2.2.symm
      · simp only [Option.some.injEq, Setup.ready.injEq] at hs
        exact hs.2.2.symm
  · simp [serveStep, onTimer, initialState, h]
  · simp [serveStep, onTimer, initialState, h]

theorem startup_runs_once_witness :
    (serveStep (initialState 100) (.timer 500)).runs = 1 :=
  (startup_runs_once 100 500 (by decide)).2.2.1

/-- C7 fails as stated: the first firing of the timer in the initial state calls
`c.run`. -/
theorem startup_run_pending :
    (serveStep (initialState 100) (.timer 500)).runs = 1 ∧
      (serveLoop (initialState 100) [.timer 500]).runs ≠ (initialState 100).runs := by
  decide

/-- C9, as the code has it. After a sequence of `select` cases that delivers at
least one change, `lastChange` is the last timestamp delivered; it is the
greatest of them when no timestamp is older than one delivered before it. -/
theorem lastChange_is_last (s : ServeState) (evs : List ServeEvent) (h : changesOf evs ≠ []) :
    (serveLoop s evs).lastChange = (changesOf evs).getLast h ∧
      ((changesOf evs).Pairwise (fun a b => a ≤ b) →
        ∀ t ∈ changesOf evs, t ≤ (serveLoop s evs).lastChange) := by
  have h1 : (serveLoop s evs).lastChange = (changesOf evs).getLast h := by
    rw [serveLoop_lastChange, List.getLast?_eq_getLast _ h]
    rfl
  refine ⟨h1, fun hp t ht => ?_⟩
  rw [h1]
  exact le_getLast_of_pairwise _ h hp t ht

theorem lastChange_is_last_witness :
    (serveLoop (initialState 100) [.change 10, .timer 500, .change 5]).lastChange =
      (changesOf [.change 10, .timer 500, .change 5]).getLast (by decide) :=
  (lastChange_is_last (initialState 100) [.change 10, .timer 500, .change 5] (by decide)).1

/-- C9 fails as stated: an older timestamp delivered after a newer one replaces
it, so `lastChange` ends below the maximum of the delivered timestamps. -/
theorem lastChange_not_maximum :
    (serveLoop (initialState 0) [.change 10, .change 5]).lastChange = 5 ∧
      (serveLoop (initialState 0) [.change 10, .change 5]).lastChange < max 10 5 := by
  decide

/-! ## The wait loop -/

theorem wrapInt_of_lt (w : Nat) (x : Int) (h1 : 1 ≤ x) (h2 : x < 2 ^ (w - 1)) :
    wrapInt w x = x := by
  have hw : 1 ≤ w := by
    rcases Nat.eq_zero_or_pos w with h | h
    · subst h; simp at h2; omega
    · exact h
  have hpow : (2 : Int) ^ w = 2 * 2 ^ (w - 1) := by
    obtain ⟨m, rfl⟩ : ∃ m, w = m + 1 := ⟨w - 1, by omega⟩
    simp [pow_succ, mul_comm]
  have hpos : (0 : Int) < 2 ^ (w - 1) := by positivity
  simp only [wrapInt]
  rw [Int.emod_eq_of_lt (by omega) (by omega)]
  omega

theorem escalation_succ (target : Int) (k : Nat) :
    escalation target (k + 1) =
      escalation target k ++ [(target, if k = 0 then Signal.SIGTERM else Signal.SIGKILL)] := by
  simp [escalation, List.range_succ]

theorem waitLoop_unreaped (w : Nat) (hasSetPGID : Bool) (pid : Int) (start : Time) :
    ∀ (evs : List WaitEvent) (k : Nat),
      (∀ e ∈ evs, unreaped e = true) →
      k + evs.countP (accepted start) < 2 ^ (w - 1) →
      waitLoop w hasSetPGID pid start
          ⟨(k : Int), escalation (if hasSetPGID then -pid else pid) k⟩ evs =
        .waiting ⟨((k + evs.countP (accepted start) : Nat) : Int),
          escalation (if hasSetPGID then -pid else pid) (k + evs.countP (accepted start))⟩ := by
  intro evs
  induction evs with
  | nil => intro k _ _; simp [waitLoop]
  | cons e evs ih =>
    intro k hun hb
    have hun1 : ∀ e ∈ evs, unreaped e = true := fun e he => hun e (List.mem_cons_of_mem _ he)
    cases e with
    | kill t =>
      by_cases ht : t < start
      · have hacc : accepted start (.kill t) = false := by simp [accepted, ht]
        rw [List.countP_cons_of_neg _ _ (by simp [hacc])] at hb ⊢
        rw [waitLoop, if_pos ht]
        exact ih k hun1 hb
      · have hacc : accepted start (.kill t) = true := by
          simp only [accepted, decide_eq_true_eq]; exact not_lt.1 ht
        rw [List.countP_cons_of_pos _ _ hacc] at hb ⊢
        rw [waitLoop, if_neg ht]
        have hn : wrapInt w ((k : Int) + 1) = ((k + 1 : Nat) : Int) := by
          rw [wrapInt_of_lt w _ (by omega) (by
            have : ((k + 1 : Nat) : Int) < ((2 ^ (w - 1) : Nat) : Int) := by
              exact_mod_cast (by omega : k + 1 < 2 ^ (w - 1))
            simpa using this)]
          simp
        have hs : escalation (if hasSetPGID then -pid else pid) k ++
            [(if hasSetPGID then -pid else pid,
              if (k : Int) = 0 then Signal.SIGTERM else Signal.SIGKILL)] =
            escalation (if hasSetPGID then -pid else pid) (k + 1) := by
          rw [escalation_succ]
          simp
        simp only [hn, hs]
        have hk : k + 1 + evs.countP (accepted start) = k + (evs.countP (accepted start) + 1) := by
          omega
        have := ih (k + 1) hun1 (by omega)
        rw [hk] at this
        exact this
    | tick r =>
      have hacc : accepted start (.tick r) = false := rfl
      rw [List.countP_cons_of_neg _ _ (by simp [hacc])] at hb ⊢
      have hr : r = .running := by
        have := hun (.tick r) (List.mem_cons_self _ _)
        cases r <;> simp_all [unreaped]
      subst hr
      rw [waitLoop]
      exact ih k hun1 hb

/-- C3. In one `wait` call on a platform whose `int` has `w` bits, with start time
`start`, after any sequence of kill requests and ticks that leave the process
unreaped (fewer than `2 ^ (w - 1)` of the requests accepted, so that the
counter does not wrap): the counter, zero at entry, equals the number of
accepted requests (timestamp not before `start`, equality included); the
signals sent are `SIGTERM` for the first accepted request and `SIGKILL` for
every later one; and a request with a timestamp strictly before `start` changes
neither the counter nor the signals, whatever the state. -/
theorem wait_escalation (w : Nat) (hasSetPGID : Bool) (pid : Int) (start : Time)
    (evs : List WaitEvent) (hun : ∀ e ∈ evs, unreaped e = true)
    (hb : evs.countP (accepted start) < 2 ^ (w - 1)) :
    wait w hasSetPGID pid start evs =
        .waiting ⟨((evs.countP (accepted start) : Nat) : Int),
          escalation (if hasSetPGID then -pid else pid) (evs.countP (accepted start))⟩ ∧
      (∀ (st : WaitState) (t : Time) (rest : List WaitEvent), t < start →
        waitLoop w hasSetPGID pid start st (.kill t :: rest) =
          waitLoop w hasSetPGID pid start st rest) ∧
      (∀ t, accepted start (.kill t) = true ↔ start ≤ t) := by
  refine ⟨?_, ?_, ?_⟩
  · have := waitLoop_unreaped w hasSetPGID pid start evs 0 hun (by omega)
    simpa [wait, escalation] using this
  · intro st t rest ht
    rw [waitLoop, if_pos ht]
  · intro t
    simp [accepted]

theorem wait_escalation_witness :
    wait 64 true 1234 10 [.kill 3, .kill 10, .tick .running, .kill 12, .kill 15] =
      .waiting ⟨3, [(-1234, .SIGTERM), (-1234, .SIGKILL), (-1234, .SIGKILL)]⟩ :=
  (wait_escalation 64 true 1234 10 [.kill 3, .kill 10, .tick .running, .kill 12, .kill 15]
    (by decide) (by decide)).1

/-! ## `main` -/

theorem startWorkers_serving (newWatcher : Nat → Bool) (hasSetPGID : Bool)
    (exclude cmd : List String) :
    ∀ (rest : List String) (i : Nat) (started : List Client),
      i + rest.length ≤ cmd.length →
      (∀ j, i ≤ j → j < i + rest.length → newWatcher j = true) →
      ∃ ws, startWorkers newWatcher hasSetPGID exclude cmd i rest started =
          .serving (started ++ ws) ∧
        ws.length = rest.length ∧
        ∀ k p, rest[k]? = some p →
          ∃ c, ws[k]? = some c ∧ c.path = p ∧ cmd[i + k]? = some c.cmd ∧
            c.exclude = (exclude[i + k]?).getD "" ∧ c.hasSetPGID = hasSetPGID ∧
            c.excludeRe = none := by
  intro rest
  induction rest with
  | nil =>
    intro i started _ _
    exact ⟨[], by simp [startWorkers], rfl, fun k p h => by simp at h⟩
  | cons path rest ih =>
    intro i started hlen hw
    simp only [List.length_cons] at hlen hw
    have hi : i < cmd.length := by omega
    have hexc : (if exclude.length > i then exclude[i]? else some "") =
        some ((exclude[i]?).getD "") := by
      by_cases h : exclude.length > i
      · rw [if_pos h, List.getElem?_eq_getElem h]; rfl
      · rw [if_neg h, List.getElem?_eq_none (by omega)]; rfl
    obtain ⟨ws, h1, h2, h3⟩ := ih (i + 1)
      (started ++ [⟨hasSetPGID, path, cmd[i], (exclude[i]?).getD "", none⟩])
      (by omega) (fun j hj1 hj2 => hw j (by omega) (by omega))
    refine ⟨⟨hasSetPGID, path, cmd[i], (exclude[i]?).getD "", none⟩ :: ws, ?_, ?_, ?_⟩
    · rw [startWorkers]
      simp only [hexc, hw i le_rfl (by omega), List.getElem?_eq_getElem hi, if_true]
      rw [h1, List.append_assoc]
      rfl
    · simp [h2]
    · intro k p hk
      cases k with
      | zero =>
        simp only [List.getElem?_cons_zero, Option.some.injEq] at hk
        exact ⟨⟨hasSetPGID, path, cmd[i], (exclude[i]?).getD "", none⟩,
          List.getElem?_cons_zero, hk, by simp [List.getElem?_eq_getElem hi], rfl, rfl, rfl⟩
      | succ k =>
        simp only [List.getElem?_cons_succ] at hk
        obtain ⟨c, hc1, hc2, hc3, hc4, hc5⟩ := h3 k p hk
        refine ⟨c, by simpa using hc1, hc2, ?_, ?_, hc5⟩
        · rw [← hc3]; congr 1; omega
        · rw [hc4]; congr 2; omega

/-- The loop `for i, path := range watchPath` never indexes `cmd` or `exclude`
out of range when `cmd` is long enough. -/
theorem startWorkers_no_indexPanic (newWatcher : Nat → Bool) (hasSetPGID : Bool)
    (exclude cmd : List String) :
    ∀ (rest : List String) (i : Nat) (started st : List Client),
      i + rest.length ≤ cmd.length →
      startWorkers newWatcher hasSetPGID exclude cmd i rest started ≠ .indexPanic st := by
  intro rest
  induction rest with
  | nil => intro i started st _ h; simp [startWorkers] at h
  | cons path rest ih =>
    intro i started st hlen
    simp only [List.length_cons] at hlen
    have hi : i < cmd.length := by omega
    have hexc : (if exclude.length > i then exclude[i]? else some "") =
        some ((exclude[i]?).getD "") := by
      by_cases h : exclude.length > i
      · rw [if_pos h, List.getElem?_eq_getElem h]; rfl
      · rw [if_neg h, List.getElem?_eq_none (by omega)]; rfl
    rw [startWorkers]
    simp only [hexc, List.getElem?_eq_getElem hi]
    split_ifs
    · exact ih (i + 1) _ st (by omega)
    · intro h; cases h

/-- C10, as the code has it. With no command `main` prints the usage text and
exits with status 1; with commands whose number differs from the number of
paths it logs `The number of cmd not equal to watchPath` (not the usage text)
and exits with status 1; in both cases no worker is started. Otherwise no
index is out of range, and when every `fsnotify.NewWatcher()` succeeds it
starts exactly one worker per path index `i`, with `watchPath[i]`, `cmd[i]`,
and `exclude[i]` when there is one and the empty pattern otherwise. -/
theorem main_validation (newWatcher : Nat → Bool) (hasSetPGID : Bool)
    (exclude watchPath cmd : List String) :
    (cmd = [] → main newWatcher hasSetPGID exclude watchPath cmd = .usage 1) ∧
    (cmd ≠ [] → cmd.length ≠ watchPath.length →
      main newWatcher hasSetPGID exclude watchPath cmd =
        .fatal "The number of cmd not equal to watchPath" 1) ∧
    (cmd ≠ [] → cmd.length = watchPath.length →
      (∀ st, main newWatcher hasSetPGID exclude watchPath cmd ≠ .indexPanic st) ∧
      ((∀ i, i < watchPath.length → newWatcher i = true) →
        ∃ ws : List Client, main newWatcher hasSetPGID exclude watchPath cmd = .serving ws ∧
          ws.length = watchPath.length ∧
          ∀ (i : Nat) (p : String), watchPath[i]? = some p →
            ∃ c : Client, ws[i]? = some c ∧ c.path = p ∧ cmd[i]? = some c.cmd ∧
              c.exclude = (exclude[i]?).getD "")) := by
  refine ⟨?_, ?_, ?_⟩
  · intro h; simp [main, h]
  · intro h1 h2
    have : cmd.length ≠ 0 := fun h => h1 (List.length_eq_zero.1 h)
    simp [main, this, h2]
  · intro h1 h2
    have h0 : cmd.length ≠ 0 := fun h => h1 (List.length_eq_zero.1 h)
    have hm : main newWatcher hasSetPGID exclude watchPath cmd =
        startWorkers newWatcher hasSetPGID exclude cmd 0 watchPath [] := by
      simp only [main]
      rw [if_neg h0, if_neg (not_not.2 h2)]
    rw [hm]
    refine ⟨fun st => startWorkers_no_indexPanic _ _ _ _ _ 0 [] st (by omega), fun hw => ?_⟩
    obtain ⟨ws, e1, e2, e3⟩ := startWorkers_serving newWatcher hasSetPGID exclude cmd
      watchPath 0 [] (by omega) (fun j _ hj => hw j (by omega))
    refine ⟨ws, by simpa using e1, e2, fun i p hp => ?_⟩
    obtain ⟨c, c1, c2, c3, c4, _⟩ := e3 i p hp
    exact ⟨c, c1, c2, by simpa using c3, by simpa using c4⟩

theorem main_validation_witness :
    ∃ ws : List Client, main (fun _ => true) true ["vendor"] ["/r", "/s"] ["make", "go test"] = .serving ws ∧
      ws.length = ["/r", "/s"].length ∧
      ∀ (i : Nat) (p : String), ["/r", "/s"][i]? = some p →
        ∃ c : Client, ws[i]? = some c ∧ c.path = p ∧ ["make", "go test"][i]? = some c.cmd ∧
          c.exclude = (["vendor"][i]?).getD "" :=
  ((main_validation (fun _ => true) true ["vendor"] ["/r", "/s"] ["make", "go test"]).2.2
    (by decide) (by decide)).2 (fun _ _ => rfl)

/-- C10 fails as stated: with two paths and one command `main` exits with the
log message, not with the usage text. -/
theorem main_mismatch_not_usage :
    main (fun _ => true) true [] ["/r", "/s"] ["make"] =
        .fatal "The number of cmd not equal to watchPath" 1 ∧
      ¬ ∃ status, main (fun _ => true) true [] ["/r", "/s"] ["make"] = .usage status := by
  refine ⟨rfl, ?_⟩
  rintro ⟨status, h⟩
  have h2 : main (fun _ => true) true [] ["/r", "/s"] ["make"] =
      .fatal "The number of cmd not equal to watchPath" 1 := rfl
  rw [h2] at h
  cases h

/-! ## `watchDir` -/

theorem mem_watch (fs : FS) (p d : Path) : d ∈ watch fs p ↔ d = p ∧ fs.add p = .ok := by
  simp only [watch]
  cases h : fs.add p <;> simp

theorem watchEntries_mem (fs : FS) (re : Option Matcher) (visit : Path → Option (List Path))
    (p : Path) (Q : Path → Path → Prop)
    (hvisit : ∀ sub regs, visit sub = some regs → ∀ d, d ∈ regs ↔ Q sub d) :
    ∀ (es reg : List Path), watchEntries fs re visit p es = some reg →
      ∀ d, d ∈ reg ↔ ∃ e ∈ es, excluded re (pathJoin p e) = false ∧
        isDir fs (pathJoin p e) = .ok true ∧ Q (pathJoin p e) d := by
  intro es
  induction es with
  | nil =>
    intro reg h d
    simp only [watchEntries, Option.some.injEq] at h
    subst h
    simp
  | cons e es ih =>
    intro reg h d
    rw [watchEntries] at h
    by_cases hx : excluded re (pathJoin p e) = true
    · rw [if_pos hx] at h
      rw [ih reg h d]
      constructor
      · rintro ⟨e1, he1, r⟩; exact ⟨e1, List.mem_cons_of_mem _ he1, r⟩
      · rintro ⟨e1, he1, r1, r2⟩
        rcases List.mem_cons.1 he1 with rfl | he1
        · rw [hx] at r1; cases r1
        · exact ⟨e1, he1, r1, r2⟩
    · rw [if_neg hx] at h
      have hx1 : excluded re (pathJoin p e) = false := by simpa using hx
      cases hd : isDir fs (pathJoin p e) with
      | error err =>
        rw [hd] at h
        rw [ih reg h d]
        constructor
        · rintro ⟨e1, he1, r⟩; exact ⟨e1, List.mem_cons_of_mem _ he1, r⟩
        · rintro ⟨e1, he1, r1, r2, r3⟩
          rcases List.mem_cons.1 he1 with rfl | he1
          · rw [hd] at r2; cases r2
          · exact ⟨e1, he1, r1, r2, r3⟩
      | ok b =>
        cases b with
        | false =>
          rw [hd] at h
          rw [ih reg h d]
          constructor
          · rintro ⟨e1, he1, r⟩; exact ⟨e1, List.mem_cons_of_mem _ he1, r⟩
          · rintro ⟨e1, he1, r1, r2, r3⟩
            rcases List.mem_cons.1 he1 with rfl | he1
            · rw [hd] at r2; cases r2
            · exact ⟨e1, he1, r1, r2, r3⟩
        | true =>
          rw [hd] at h
          simp only at h
          cases hv : visit (pathJoin p e) with
          | none => rw [hv] at h; cases h
          | some first =>
            rw [hv] at h
            simp only at h
            cases hl : watchEntries fs re visit p es with
            | none => rw [hl] at h; cases h
            | some later =>
              rw [hl] at h
              simp only [Option.map_some', Option.some.injEq] at h
              subst h
              rw [List.mem_append, hvisit _ _ hv d, ih later hl d]
              constructor
              · rintro (hq | ⟨e1, he1, r⟩)
                · exact ⟨e, List.mem_cons_self _ _, hx1, hd, hq⟩
                · exact ⟨e1, List.mem_cons_of_mem _ he1, r⟩
              · rintro ⟨e1, he1, r1, r2, r3⟩
                rcases List.mem_cons.1 he1 with rfl | he1
                · exact Or.inl r3
                · exact Or.inr ⟨e1, he1, r1, r2, r3⟩

/-- The paths `watchDir` registers are the directories its walk enters that can
still be listed and that the watcher accepts. -/
theorem watchDir_mem (fs : FS) (re : Option Matcher) (fuel : Nat) :
    ∀ (p : Path) (reg : List Path), watchDir fs re fuel p = some reg →
      ∀ d, d ∈ reg ↔ Walks fs re p d ∧ fs.readDir d ≠ .notExist ∧ fs.add d = .ok := by
  induction fuel with
  | zero => intro p reg h; simp [watchDir] at h
  | succ fuel ih =>
    intro p reg h d
    rw [watchDir] at h
    cases hr : fs.readDir p with
    | notExist =>
      rw [hr] at h
      simp only [Option.some.injEq] at h
      subst h
      simp only [List.not_mem_nil, false_iff]
      rintro ⟨hw, hne, _⟩
      cases hw with
      | here => exact hne hr
      | down names e h1 => rw [hr] at h1; cases h1
    | failed err =>
      rw [hr] at h
      simp only [listed, watchEntries, Option.map_some', List.nil_append,
        Option.some.injEq] at h
      subst h
      rw [mem_watch]
      constructor
      · rintro ⟨rfl, ha⟩
        exact ⟨Walks.here _, by rw [hr]; simp, ha⟩
      · rintro ⟨hw, _, ha⟩
        cases hw with
        | here => exact ⟨rfl, ha⟩
        | down names e h1 => rw [hr] at h1; cases h1
    | entries names =>
      rw [hr] at h
      simp only [listed] at h
      cases hb : watchEntries fs re (watchDir fs re fuel) p names with
      | none => rw [hb] at h; cases h
      | some below =>
        rw [hb] at h
        simp only [Option.map_some', Option.some.injEq] at h
        subst h
        rw [List.mem_append, mem_watch,
          watchEntries_mem fs re (watchDir fs re fuel) p
            (fun sub d => Walks fs re sub d ∧ fs.readDir d ≠ .notExist ∧ fs.add d = .ok)
            (fun sub regs hs d => ih sub regs hs d) names below hb d]
        constructor
        · rintro (⟨e, he, h1, h2, h3, h4⟩ | ⟨rfl, ha⟩)
          · exact ⟨Walks.down names e hr he h1 h2 h3, h4⟩
          · exact ⟨Walks.here _, by rw [hr]; simp, ha⟩
        · rintro ⟨hw, hne, ha⟩
          cases hw with
          | here => exact Or.inr ⟨rfl, ha⟩
          | down names1 e h1 h2 h3 h4 h5 =>
            rw [hr] at h1
            cases h1
            exact Or.inl ⟨e, h2, h3, h4, h5, hne, ha⟩

theorem watchEntries_returns (fs : FS) (re : Option Matcher)
    (visit : Path → Option (List Path)) (p : Path) :
    ∀ es : List Path,
      (∀ e ∈ es, excluded re (pathJoin p e) = false → isDir fs (pathJoin p e) = .ok true →
        ∃ r, visit (pathJoin p e) = some r) →
      ∃ reg, watchEntries fs re visit p es = some reg := by
  intro es
  induction es with
  | nil => intro _; exact ⟨[], rfl⟩
  | cons e es ih =>
    intro hv
    obtain ⟨later, hl⟩ := ih (fun e1 he1 => hv e1 (List.mem_cons_of_mem _ he1))
    rw [watchEntries]
    by_cases hx : excluded re (pathJoin p e) = true
    · rw [if_pos hx]; exact ⟨later, hl⟩
    · rw [if_neg hx]
      cases hd : isDir fs (pathJoin p e) with
      | error err => exact ⟨later, hl⟩
      | ok b =>
        cases b with
        | false => exact ⟨later, hl⟩
        | true =>
          obtain ⟨first, hf⟩ := hv e (List.mem_cons_self _ _) (by simpa using hx) hd
          simp only [hf, hl]
          exact ⟨_, rfl⟩

/-- The walk of `watchDir` returns once the fuel exceeds a rank that every entry
the walk enters lowers. -/
theorem watchDir_returns (fs : FS) (re : Option Matcher) (rank : Path → Nat)
    (hrank : ∀ d names e, fs.readDir d = .entries names → e ∈ names →
      excluded re (pathJoin d e) = false → isDir fs (pathJoin d e) = .ok true →
      rank (pathJoin d e) < rank d) (fuel : Nat) :
    ∀ p : Path, rank p < fuel → ∃ reg, watchDir fs re fuel p = some reg := by
  induction fuel with
  | zero => intro p h; omega
  | succ fuel ih =>
    intro p hp
    rw [watchDir]
    cases hr : fs.readDir p with
    | notExist => exact ⟨[], rfl⟩
    | failed err => exact ⟨_, rfl⟩
    | entries names =>
      simp only [listed]
      obtain ⟨below, hb⟩ := watchEntries_returns fs re (watchDir fs re fuel) p names
        (fun e he hx hd => ih _ (by have := hrank p names e hr he hx hd; omega))
      rw [hb]
      exact ⟨_, rfl⟩

/-! ## `sendChanges` and the start of `serve` -/

/-- C4. With a compiled exclude pattern, an event whose path matches the pattern
is dropped by `sendChanges` whatever its operation and whatever the file
system holds: `modTime` is not called, no path is registered with the watcher
and nothing is sent on `changes`. -/
theorem sendChanges_excluded (fs : FS) (c : Client) (fuel : Nat) (ev : FsEvent)
    (re : Matcher) (hre : c.excludeRe = some re) (hm : re ev.name = true) :
    sendChanges fs c fuel (.event ev) = some (.handled ⟨none, [], none⟩) := by
  simp [sendChanges, hre, excluded, hm]

theorem sendChanges_excluded_witness :
    sendChanges sampleFS ⟨true, "/r", "make", "vendor", some (literalMatcher "vendor".toList)⟩ 3
        (.event ⟨"/r/vendor/lib".toList, opCreate⟩) =
      some (.handled ⟨none, [], none⟩) :=
  sendChanges_excluded sampleFS _ 3 _ (literalMatcher "vendor".toList) rfl (by decide)

/-- C8, as the code has it. For an accepted create event whose path is a directory
(in a file system where the walk descends along a `rank`, with fuel above it),
`sendChanges` runs the recursive walk `watchDir` on the path and then sends
the timestamp: it registers every directory the walk enters, below the new
directory too, that can be listed and that the watcher accepts, and the new
directory itself comes last. -/
theorem sendChanges_create_dir (fs : FS) (c : Client) (fuel : Nat) (ev : FsEvent) (t : Time)
    (rank : Path → Nat)
    (hex : excluded c.excludeRe ev.name = false)
    (hstat : fs.stat ev.name = .found true t)
    (hop : ev.op &&& opCreate ≠ 0)
    (hrank : ∀ d names e, fs.readDir d = .entries names → e ∈ names →
      excluded c.excludeRe (pathJoin d e) = false → isDir fs (pathJoin d e) = .ok true →
      rank (pathJoin d e) < rank d)
    (hfuel : rank ev.name < fuel) :
    ∃ reg : List Path,
      sendChanges fs c fuel (.event ev) = some (.handled ⟨some (.ok t), reg, some t⟩) ∧
      (∀ d, d ∈ reg ↔
        Walks fs c.excludeRe ev.name d ∧ fs.readDir d ≠ .notExist ∧ fs.add d = .ok) ∧
      (fs.readDir ev.name ≠ .notExist → fs.add ev.name = .ok →
        reg.getLast? = some ev.name) := by
  obtain ⟨reg, hreg⟩ := watchDir_returns fs c.excludeRe rank hrank fuel ev.name hfuel
  have hmt : modTime fs.stat (modTimeFuel ev.name) ev.name = some (.ok t) := by
    rw [modTimeFuel, modTime, hstat]
  have hd : isDir fs ev.name = .ok true := by rw [isDir, hstat]
  refine ⟨reg, ?_, watchDir_mem fs c.excludeRe fuel ev.name reg hreg, ?_⟩
  · simp [sendChanges, hex, hmt, hop, hd, hreg]
  · intro hne ha
    obtain ⟨m, rfl⟩ : ∃ m, fuel = m + 1 := ⟨fuel - 1, by omega⟩
    rw [watchDir] at hreg
    cases hr : fs.readDir ev.name with
    | notExist => exact absurd hr hne
    | failed err =>
      rw [hr] at hreg
      simp only [listed, watchEntries, Option.map_some', List.nil_append,
        Option.some.injEq] at hreg
      subst hreg
      simp [watch, ha]
    | entries names =>
      rw [hr] at hreg
      simp only [listed] at hreg
      cases hb : watchEntries fs c.excludeRe (watchDir fs c.excludeRe m) ev.name names with
      | none => rw [hb] at hreg; cases hreg
      | some below =>
        rw [hb] at hreg
        simp only [Option.map_some', Option.some.injEq] at hreg
        subst hreg
        simp [watch, ha]

theorem sampleRank_lowers (d : Path) (names : List Path) (e : Path)
    (h : sampleFS.readDir d = .entries names) (he : e ∈ names) :
    sampleRank (pathJoin d e) < sampleRank d := by
  simp only [sampleFS] at h
  split_ifs at h with h1 h2 h3
  · cases h
    subst h1
    simp only [List.mem_cons, List.mem_singleton, List.not_mem_nil, or_false] at he
    rcases he with rfl | rfl <;> decide
  · cases h
    subst h2
    simp only [List.mem_singleton] at he
    subst he
    decide
  · cases h
    simp at he

theorem sendChanges_create_dir_witness :
    ∃ reg : List Path,
      sendChanges sampleFS ⟨true, "/r", "make", "", none⟩ 3
          (.event ⟨"/r/vendor".toList, opCreate⟩) =
        some (.handled ⟨some (.ok 7), reg, some 7⟩) ∧
      (∀ d, d ∈ reg ↔
        Walks sampleFS none "/r/vendor".toList d ∧ sampleFS.readDir d ≠ .notExist ∧
          sampleFS.add d = .ok) ∧
      (sampleFS.readDir "/r/vendor".toList ≠ .notExist → sampleFS.add "/r/vendor".toList = .ok →
        reg.getLast? = some "/r/vendor".toList) :=
  sendChanges_create_dir sampleFS ⟨true, "/r", "make", "", none⟩ 3
    ⟨"/r/vendor".toList, opCreate⟩ 7 sampleRank rfl (by decide) (by decide)
    (fun d names e h he _ _ => sampleRank_lowers d names e h he) (by decide)

/-- C8 fails as stated: a create event for the directory `/r/vendor`, which holds
the directory `lib`, makes `sendChanges` register `/r/vendor/lib` as well as
`/r/vendor`. -/
theorem sendChanges_registers_below :
    sendChanges sampleFS ⟨true, "/r", "make", "", none⟩ 3
        (.event ⟨"/r/vendor".toList, opCreate⟩) =
      some (.handled ⟨some (.ok 7), ["/r/vendor/lib".toList, "/r/vendor".toList], some 7⟩) := by
  rfl

/-- C5 fails on the code. For the target `-p /r -c make -x vendor`, `main` builds
the client without a compiled pattern, `serve` compiles the pattern only after
`startWatching` has returned, and so the initial registration includes
`/r/vendor` and `/r/vendor/lib`, which the compiled pattern matches. -/
theorem serve_registers_excluded :
    (∃ c : Client, main (fun _ => true) true ["vendor"] ["/r"] ["make"] = .serving [c] ∧
      c.path = "/r" ∧ c.cmd = "make" ∧ c.exclude = "vendor" ∧ c.excludeRe = none) ∧
    (serve compileLiteral sampleFS 3 ⟨true, "/r", "make", "vendor", none⟩ 100).map
        Setup.registered =
      some ["/r/vendor/lib".toList, "/r/vendor".toList, "/r/src".toList, "/r".toList] ∧
    (serve compileLiteral sampleFS 3 ⟨true, "/r", "make", "vendor", none⟩ 100).map
        (fun s => (excluded s.matcher "/r/vendor".toList,
          excluded s.matcher "/r/vendor/lib".toList)) =
      some (true, true) := by
  refine ⟨⟨_, rfl, rfl, rfl, rfl, rfl⟩, ?_, ?_⟩
  · rfl
  · rfl

end Watcher
